import Mathlib

/-!
Shallow embedding of `src/search_algorithm.py` (the duckie command-search
engine): tokenization, index building, spelling correction, candidate
retrieval, language-model scoring and top-k selection, together with
theorems settling the frozen claims about the specification.

External collaborators (the `pyspellchecker` dictionary and the
`rapidfuzz` approximate matcher) are not part of the repository; they are
modelled abstractly through an `Oracles` record whose contract follows
spec section 6, and the claims quantify over all oracles.  Machine floats
are embedded as real numbers.
-/

namespace Duckie

/-- The whitespace characters recognised by Python's `str.split()` /
`str.strip()` (ASCII fragment). -/
def pySpace : List Char := [' ', '\t', '\n', '\r', '\x0b', '\x0c']

/-- The punctuation characters stripped by `word.strip('.,!?()[]\x7b\x7d')`
in `_tokenize`. -/
def pyPunct : List Char := ['.', ',', '!', '?', '(', ')', '[', ']', '\x7b', '\x7d']

/-- Python `str.strip()` with no argument: drop leading and trailing
whitespace. -/
def stripWs (s : String) : String :=
  ⟨((s.data.dropWhile (pySpace.contains ·)).reverse.dropWhile
      (pySpace.contains ·)).reverse⟩

/-- Python `word.strip('.,!?()[]\x7b\x7d')`: drop leading and trailing
punctuation from the fixed set. -/
def pyStrip (s : String) : String :=
  ⟨((s.data.dropWhile (pyPunct.contains ·)).reverse.dropWhile
      (pyPunct.contains ·)).reverse⟩

/-- Helper for `pySplit`: split a character list at whitespace, producing
the chunks between whitespace characters (empty chunks included, as with
repeated separators). -/
def splitWsAux (cur : List Char) : List Char → List (List Char)
  | [] => [cur.reverse]
  | c :: rest =>
      if pySpace.contains c then cur.reverse :: splitWsAux [] rest
      else splitWsAux (c :: cur) rest

/-- Python `text.split()`: split on whitespace runs, discarding empty
pieces. -/
def pySplit (s : String) : List String :=
  ((splitWsAux [] s.data).map (fun l => (⟨l⟩ : String))).filter (fun w => w ≠ "")

/-- Python `str.lower()` (ASCII fragment), applied characterwise. -/
def pyLower (s : String) : String :=
  ⟨s.data.map Char.toLower⟩

/-- `CommandSearcher._tokenize`: split on whitespace, strip punctuation,
lowercase, keep tokens whose stripped length exceeds 2, deduplicate
(Python builds a `set`; `list(set(...))` has unspecified order, embedded
here as `List.dedup`). -/
def tokenize (text : String) : List String :=
  if text = "" then []
  else ((((pySplit text).filter (fun w => 2 < (pyStrip w).length)).map
      (fun w => pyLower (pyStrip w)))).dedup

/-- One catalog entry as consumed by the searcher (`intent`, `command`,
`description`; the database `id` plays no role in `search`). -/
structure Record where
  intent : String
  command : String
  description : String
deriving DecidableEq, Repr

/-- The searchable text `f"{intent} {command} {description}"` built in
`build_index`. -/
def searchText (c : Record) : String :=
  c.intent ++ " " ++ c.command ++ " " ++ c.description

/-- Abstract model of the two external collaborators (spec section 6):
`pyspellchecker`'s `correction` (given the current known-words set) and
`rapidfuzz.process.extractOne` with the `WRatio` scorer (0-100 scale,
embedded as rationals).  `extractOne` returns `none` exactly on an empty
candidate list and otherwise some pair, which is rapidfuzz's documented
behaviour with no score cutoff. -/
structure Oracles where
  correction : Finset String → String → Option String
  extractOne : String → List String → Option (String × ℚ)
  extractOne_nil : ∀ w, extractOne w [] = none
  extractOne_some : ∀ w l, l ≠ [] → ∃ m s, extractOne w l = some (m, s)

/-- The state produced by `CommandSearcher.build_index`: the vocabulary
enumeration `all_words`, the inverted index `word_index`, the per-record
keyword sets `command_keywords`, and the spell checker's accumulated
known-words set. -/
structure SearcherState where
  allWords : List String
  wordIndex : String → Finset ℕ
  commandKeywords : List (List String)
  knownWords : Finset String

/-- `CommandSearcher.build_index`: rebuild vocabulary, inverted index and
keyword sets from the catalog.  The spell checker is created once in
`__init__` and `load_words` only adds to it, so its known-words set is the
prior contents (`prior`) unioned with the new vocabulary. -/
def buildIndex (prior : Finset String) (cmds : List Record) : SearcherState :=
  let aw := ((cmds.map (fun c => tokenize (searchText c))).flatten).dedup
  { allWords := aw
    wordIndex := fun w =>
      (Finset.range cmds.length).filter
        (fun i => w ∈ tokenize (searchText (cmds.getD i ⟨"", "", ""⟩)))
    commandKeywords := cmds.map (fun c => tokenize (searchText c))
    knownWords := prior ∪ aw.toFinset }

/-- The vocabulary of a catalog as a set (for stating claims about the
known-words side effect). -/
def vocabFinset (cmds : List Record) : Finset String :=
  ((cmds.map (fun c => tokenize (searchText c))).flatten).toFinset

/-- `CommandSearcher._correct_spelling`.  Returns `none` when the code
raises: with an empty vocabulary `extractOne` yields `None` and the
unpacking `best_match, score, _ = ...` throws `TypeError`. -/
def correctSpelling (O : Oracles) (st : SearcherState) (w : String) : Option String :=
  if w ∈ st.allWords then some w
  else
    let fb : Option String :=
      match O.extractOne w st.allWords with
      | none => none
      | some (m, s) => some (if 80 < s then m else w)
    match O.correction st.knownWords w with
    | some c => if c ≠ "" ∧ c ∈ st.allWords then some c else fb
    | none => fb

/-- The correction loop of `search`, processing tokens left to right and
propagating an exception (`none`) from the first failing correction. -/
def correctedWords (O : Oracles) (st : SearcherState) : List String → Option (List String)
  | [] => some []
  | w :: ws =>
    match correctSpelling O st w with
    | none => none
    | some c =>
      match correctedWords O st ws with
      | none => none
      | some rest => some (c :: rest)

/-- The corrected query-word list built by the loop in `search` (spelling
correction of each token, keeping truthy results); `none` when a
correction raised. -/
def queryWordsOf (O : Oracles) (st : SearcherState) (query : String) :
    Option (List String) :=
  (correctedWords O st (tokenize query)).map (fun l => l.filter (fun w => w ≠ ""))

/-- `CommandSearcher._get_word_indices`: map words to vocabulary positions,
dropping unknown words. -/
def getWordIndices (st : SearcherState) (words : List String) : List ℕ :=
  words.filterMap (fun w => st.allWords.findIdx? (· == w))

/-- The candidate set of `search`: union of inverted-index entries over
all corrected query words (`candidate_indices`). -/
def candidateFinset (st : SearcherState) (qws : List String) : Finset ℕ :=
  qws.foldl (fun acc w => acc ∪ st.wordIndex w) ∅

/-- The candidate positions enumerated for scoring.  The source iterates
the Python set `candidate_indices` in unspecified order; for a state
produced by `buildIndex` every entry of the inverted index lies below
`commandKeywords.length`, so this enumerates exactly the candidate set,
in increasing order. -/
def candidateList (st : SearcherState) (qws : List String) : List ℕ :=
  (List.range st.commandKeywords.length).filter
    (fun i => i ∈ candidateFinset st qws)

section RealPart

/-- The parameters of `MicroLanguageModel`: embedding table, attention
vector and classifier matrix.  They are drawn from `np.random.randn` at
build time, so the claims quantify over arbitrary real values. -/
structure LMParams where
  emb : ℕ → ℕ → ℝ
  att : ℕ → ℝ
  cls : ℕ → ℕ → ℝ

/-- The embedding width (`embed_size=16`, the default used by
`build_index`). -/
def embedSize : ℕ := 16

/-- The logistic squashing `1 / (1 + np.exp(-x))` at the end of
`MicroLanguageModel.forward`. -/
noncomputable def sigmoid (x : ℝ) : ℝ := 1 / (1 + Real.exp (-x))

/-- Component `j` of
`np.mean([self.embeddings[idx % len(self.embeddings)] for idx in word_indices], axis=0)`. -/
noncomputable def meanEmb (p : LMParams) (V : ℕ) (ids : List ℕ) (j : ℕ) : ℝ :=
  ((ids.map (fun i => p.emb (i % V) j)).sum) / (ids.length : ℝ)

/-- The scalar `attention_scores = np.dot(embedded, self.attention_weights)`. -/
noncomputable def attnScore (p : LMParams) (V : ℕ) (ids : List ℕ) : ℝ :=
  ∑ j ∈ Finset.range embedSize, meanEmb p V ids j * p.att j

/-- `MicroLanguageModel.forward`: neutral output `[0.33, 0.33, 0.33]` on an
empty id list; otherwise average the addressed embedding rows, apply the
(scalar) softmax attention weight `exp(s) / exp(s)`, project through the
classifier and squash with the sigmoid. -/
noncomputable def forward (p : LMParams) (V : ℕ) (ids : List ℕ) : Fin 3 → ℝ :=
  if ids = [] then fun _ => 0.33
  else fun k =>
    sigmoid (∑ j ∈ Finset.range embedSize,
      (meanEmb p V ids j *
        (Real.exp (attnScore p V ids) / Real.exp (attnScore p V ids))) * p.cls j k)

/-- Modelled from the claim (refinement target of C10): the forward pass
with the attention stage removed — the sigmoid of the classifier applied
to the plain mean embedding. -/
noncomputable def forwardNoAttn (p : LMParams) (V : ℕ) (ids : List ℕ) : Fin 3 → ℝ :=
  fun k => sigmoid (∑ j ∈ Finset.range embedSize, meanEmb p V ids j * p.cls j k)

/-- `np.dot` on the two 3-dimensional feature vectors. -/
noncomputable def dot3 (f g : Fin 3 → ℝ) : ℝ := ∑ k : Fin 3, f k * g k

/-- `np.linalg.norm` on a 3-dimensional feature vector. -/
noncomputable def norm3 (f : Fin 3 → ℝ) : ℝ := Real.sqrt (∑ k : Fin 3, (f k) ^ 2)

/-- `CommandSearcher._analyze_with_lm`: cosine similarity (with the 1e-6
guard) of the two forward passes, remapped from [-1, 1] to [0, 1]. -/
noncomputable def analyzeWithLm (p : LMParams) (st : SearcherState)
    (queryWords cmdWords : List String) : ℝ :=
  let qf := forward p st.allWords.length (getWordIndices st queryWords)
  let cf := forward p st.allWords.length (getWordIndices st cmdWords)
  (dot3 qf cf / (norm3 qf * norm3 cf + 1e-6) + 1) / 2

/-- The coverage feature: `len(matched_words) / len(query_words)`, where
`matched_words = set(query_words) & cmd_words` (distinct matches over the
corrected-token count with multiplicity). -/
noncomputable def coverageOf (qws cw : List String) : ℝ :=
  ((qws.dedup.filter (fun w => w ∈ cw)).length : ℝ) / (qws.length : ℝ)

/-- The density feature: `len(matched_words) / len(cmd_words)` when the
keyword set is non-empty, else 0. -/
noncomputable def densityOf (qws cw : List String) : ℝ :=
  if cw = [] then 0
  else ((qws.dedup.filter (fun w => w ∈ cw)).length : ℝ) / (cw.length : ℝ)

/-- The combined score of candidate `i`:
`(lm_score * 0.6) + (coverage * 0.3) + (density * 0.1)`. -/
noncomputable def scoreOf (p : LMParams) (st : SearcherState)
    (qws : List String) (i : ℕ) : ℝ :=
  let cw := st.commandKeywords.getD i []
  0.6 * analyzeWithLm p st qws cw + 0.3 * coverageOf qws cw + 0.1 * densityOf qws cw

open Classical in
/-- The scored candidates kept by `search`: each candidate with its score,
restricted to scores above the 0.3 threshold (the entries pushed on the
heap). -/
noncomputable def scoredList (p : LMParams) (st : SearcherState)
    (qws : List String) : List (ℕ × ℝ) :=
  ((candidateList st qws).map (fun i => (i, scoreOf p st qws i))).filter
    (fun e => 0.3 < e.2)

open Classical in
/-- Stable descending insertion for `sortDesc`. -/
noncomputable def insertDesc (x : ℕ × ℝ) : List (ℕ × ℝ) → List (ℕ × ℝ)
  | [] => [x]
  | y :: ys => if y.2 ≤ x.2 then x :: y :: ys else y :: insertDesc x ys

/-- The final ordering of `search`:
`sorted(scored_results, key=lambda x: x[0])` on `(-score, idx)` pairs is a
stable sort by descending score; the relative order of equal scores is
unspecified in the source (heap layout), embedded here as a stable
insertion sort over the candidate enumeration. -/
noncomputable def sortDesc : List (ℕ × ℝ) → List (ℕ × ℝ)
  | [] => []
  | x :: xs => insertDesc x (sortDesc xs)

/-- The value returned by `search` after the guards: top 3 scored
candidates paired with their records (`(commands[idx], -score)`). -/
noncomputable def topResults (p : LMParams) (st : SearcherState)
    (qws : List String) (cmds : List Record) : List (Record × ℝ) :=
  ((sortDesc (scoredList p st qws)).take 3).map
    (fun e => (cmds.getD e.1 ⟨"", "", ""⟩, e.2))

/-- `CommandSearcher.search`.  `none` models an escaping exception (the
`TypeError` raised when `_correct_spelling` unpacks `extractOne`'s `None`
on an empty vocabulary). -/
noncomputable def search (O : Oracles) (p : LMParams) (st : SearcherState)
    (query : String) (cmds : List Record) : Option (List (Record × ℝ)) :=
  if stripWs query = "" then some []
  else
    (queryWordsOf O st query).map
      (fun qws => if qws = [] then [] else topResults p st qws cmds)

/-- A full pass of the engine: `build_index(cmds)` on a spell checker whose
dictionary currently holds `eng`, followed by `search(query, cmds)` on the
same catalog snapshot. -/
noncomputable def searchBuilt (O : Oracles) (p : LMParams) (eng : Finset String)
    (cmds : List Record) (query : String) : Option (List (Record × ℝ)) :=
  search O p (buildIndex eng cmds) query cmds

end RealPart

/-- Concrete one-keyword record used as a test fixture. -/
def rec0 : Record := ⟨"alpha", "", ""⟩

/-- A second concrete record with a different keyword. -/
def recB : Record := ⟨"bravo", "", ""⟩

/-- A trivial oracle instance: no dictionary corrections; the approximate
matcher returns the first candidate with similarity 0. -/
def O0 : Oracles where
  correction := fun _ _ => none
  extractOne := fun _ l => l.head?.map (fun m => (m, 0))
  extractOne_nil := fun _ => rfl
  extractOne_some := by
    intro w l hl
    cases l with
    | nil => exact absurd rfl hl
    | cons a t => exact ⟨a, 0, rfl⟩

/-- An oracle whose dictionary correction maps every unknown word to
"alpha" (as `pyspellchecker` does for words one edit away from it). -/
def O6 : Oracles where
  correction := fun _ _ => some "alpha"
  extractOne := fun _ l => l.head?.map (fun m => (m, 0))
  extractOne_nil := fun _ => rfl
  extractOne_some := by
    intro w l hl
    cases l with
    | nil => exact absurd rfl hl
    | cons a t => exact ⟨a, 0, rfl⟩

/-- All-zero language-model parameters (a concrete instantiation of the
random draw). -/
def p0 : LMParams := ⟨fun _ _ => 0, fun _ => 0, fun _ _ => 0⟩

/-- The score the engine assigns to the only candidate when the catalog is
`[rec0]` and the query is "alpha" (under `p0`). -/
noncomputable def scoreAlpha : ℝ := scoreOf p0 (buildIndex ∅ [rec0]) ["alpha"] 0

/-- The score the engine assigns to each of the two duplicate candidates
when the catalog is `[rec0, rec0]` and the query is "alpha" (under `p0`). -/
noncomputable def scoreAlpha2 : ℝ := scoreOf p0 (buildIndex ∅ [rec0, rec0]) ["alpha"] 0

/-! ### Bounds on the scoring pipeline -/

theorem sigmoid_pos (x : ℝ) : 0 < sigmoid x := by
  unfold sigmoid
  positivity

theorem sigmoid_lt_one (x : ℝ) : sigmoid x < 1 := by
  unfold sigmoid
  rw [div_lt_one (by positivity)]
  linarith [Real.exp_pos (-x)]

theorem forward_pos (p : LMParams) (V : ℕ) (ids : List ℕ) (k : Fin 3) :
    0 < forward p V ids k := by
  unfold forward
  split
  · norm_num
  · exact sigmoid_pos _

theorem forward_lt_one (p : LMParams) (V : ℕ) (ids : List ℕ) (k : Fin 3) :
    forward p V ids k < 1 := by
  unfold forward
  split
  · norm_num
  · exact sigmoid_lt_one _

theorem dot3_pos {f g : Fin 3 → ℝ} (hf : ∀ k, 0 < f k) (hg : ∀ k, 0 < g k) :
    0 < dot3 f g := by
  unfold dot3
  exact Finset.sum_pos (fun k _ => mul_pos (hf k) (hg k)) Finset.univ_nonempty

theorem norm3_nonneg (f : Fin 3 → ℝ) : 0 ≤ norm3 f := Real.sqrt_nonneg _

/-- Cauchy-Schwarz for the 3-dimensional feature vectors. -/
theorem dot3_le_norm3_mul (f g : Fin 3 → ℝ) : dot3 f g ≤ norm3 f * norm3 g := by
  unfold dot3 norm3
  rw [← Real.sqrt_mul (by positivity)]
  apply Real.le_sqrt_of_sq_le
  simp only [Fin.sum_univ_three]
  nlinarith [sq_nonneg (f 0 * g 1 - f 1 * g 0), sq_nonneg (f 0 * g 2 - f 2 * g 0),
    sq_nonneg (f 1 * g 2 - f 2 * g 1)]

/-- The remapped cosine similarity of `_analyze_with_lm` always lands
strictly between 1/2 and 1: both feature vectors have positive
components, so the cosine is positive, and the 1e-6 guard keeps it
strictly below 1. -/
theorem analyzeWithLm_bounds (p : LMParams) (st : SearcherState)
    (qws cw : List String) :
    1 / 2 < analyzeWithLm p st qws cw ∧ analyzeWithLm p st qws cw < 1 := by
  unfold analyzeWithLm
  set qf := forward p st.allWords.length (getWordIndices st qws) with hqf
  set cf := forward p st.allWords.length (getWordIndices st cw) with hcf
  have hdot : 0 < dot3 qf cf :=
    dot3_pos (fun k => forward_pos _ _ _ k) (fun k => forward_pos _ _ _ k)
  have hden : (0 : ℝ) < norm3 qf * norm3 cf + 1e-6 := by
    have := mul_nonneg (norm3_nonneg qf) (norm3_nonneg cf)
    norm_num
    linarith
  have hsim_pos : 0 < dot3 qf cf / (norm3 qf * norm3 cf + 1e-6) :=
    div_pos hdot hden
  have hsim_lt : dot3 qf cf / (norm3 qf * norm3 cf + 1e-6) < 1 := by
    rw [div_lt_one hden]
    have := dot3_le_norm3_mul qf cf
    norm_num
    linarith
  constructor <;> [linarith; linarith]

theorem natCast_div_le_one {a b : ℕ} (h : a ≤ b) : (a : ℝ) / (b : ℝ) ≤ 1 := by
  rcases Nat.eq_zero_or_pos b with hb | hb
  · subst hb
    simp [Nat.le_zero.mp h]
  · rw [div_le_one (by exact_mod_cast hb)]
    exact_mod_cast h

theorem coverageOf_nonneg (qws cw : List String) : 0 ≤ coverageOf qws cw := by
  unfold coverageOf
  positivity

theorem coverageOf_le_one (qws cw : List String) : coverageOf qws cw ≤ 1 := by
  unfold coverageOf
  exact natCast_div_le_one
    (le_trans (List.length_filter_le _ _) (List.Sublist.length_le (List.dedup_sublist qws)))

/-- The distinct matched words are no more numerous than the keyword
list. -/
theorem matched_le_cw (qws cw : List String) :
    (qws.dedup.filter (fun w => w ∈ cw)).length ≤ cw.length := by
  have hnd : (qws.dedup.filter (fun w => w ∈ cw)).Nodup :=
    List.Nodup.filter _ qws.nodup_dedup
  calc (qws.dedup.filter (fun w => w ∈ cw)).length
      = (qws.dedup.filter (fun w => w ∈ cw)).toFinset.card :=
        (List.toFinset_card_of_nodup hnd).symm
    _ ≤ cw.toFinset.card := by
        apply Finset.card_le_card
        intro x hx
        simp only [List.mem_toFinset, List.mem_filter, decide_eq_true_eq] at hx ⊢
        exact hx.2
    _ ≤ cw.length := cw.toFinset_card_le

theorem densityOf_nonneg (qws cw : List String) : 0 ≤ densityOf qws cw := by
  unfold densityOf
  split
  · norm_num
  · positivity

theorem densityOf_le_one (qws cw : List String) : densityOf qws cw ≤ 1 := by
  unfold densityOf
  split
  · norm_num
  · exact natCast_div_le_one (matched_le_cw qws cw)

/-- Every candidate's combined score lies in (0.3, 1]: the similarity
feature alone contributes more than 0.6 · 1/2, so the 0.3 threshold in
`search` never rejects a candidate, and all three features are bounded
by 1. -/
theorem scoreOf_bounds (p : LMParams) (st : SearcherState) (qws : List String)
    (i : ℕ) : 0.3 < scoreOf p st qws i ∧ scoreOf p st qws i ≤ 1 := by
  unfold scoreOf
  obtain ⟨h1, h2⟩ := analyzeWithLm_bounds p st qws (st.commandKeywords.getD i [])
  have c1 := coverageOf_nonneg qws (st.commandKeywords.getD i [])
  have c2 := coverageOf_le_one qws (st.commandKeywords.getD i [])
  have d1 := densityOf_nonneg qws (st.commandKeywords.getD i [])
  have d2 := densityOf_le_one qws (st.commandKeywords.getD i [])
  constructor <;> nlinarith

/-! ### The sort and the result list -/

theorem mem_insertDesc {x e : ℕ × ℝ} {l : List (ℕ × ℝ)} :
    e ∈ insertDesc x l ↔ e = x ∨ e ∈ l := by
  induction l with
  | nil => simp [insertDesc]
  | cons y ys ih =>
    simp only [insertDesc]
    split
    · simp [or_comm, or_assoc, or_left_comm]
    · simp [ih]
      tauto

theorem mem_sortDesc {e : ℕ × ℝ} {l : List (ℕ × ℝ)} :
    e ∈ sortDesc l ↔ e ∈ l := by
  induction l with
  | nil => simp [sortDesc]
  | cons x xs ih => simp [sortDesc, mem_insertDesc, ih]

theorem pairwise_insertDesc (x : ℕ × ℝ) {l : List (ℕ × ℝ)}
    (h : l.Pairwise (fun a b => b.2 ≤ a.2)) :
    (insertDesc x l).Pairwise (fun a b => b.2 ≤ a.2) := by
  induction l with
  | nil => simp [insertDesc]
  | cons y ys ih =>
    rw [List.pairwise_cons] at h
    obtain ⟨hy, hys⟩ := h
    simp only [insertDesc]
    split
    · refine List.Pairwise.cons ?_ (List.Pairwise.cons hy hys)
      intro z hz
      rcases List.mem_cons.mp hz with rfl | hz'
      · assumption
      · exact le_trans (hy z hz') (by assumption)
    · refine List.Pairwise.cons ?_ (ih hys)
      intro z hz
      rcases mem_insertDesc.mp hz with rfl | hz'
      · exact le_of_lt (lt_of_not_le (by assumption))
      · exact hy z hz'

theorem pairwise_sortDesc (l : List (ℕ × ℝ)) :
    (sortDesc l).Pairwise (fun a b => b.2 ≤ a.2) := by
  induction l with
  | nil => exact List.Pairwise.nil
  | cons x xs ih => exact pairwise_insertDesc x ih

theorem mem_foldl_union (l : List String) (wi : String → Finset ℕ)
    (acc : Finset ℕ) (i : ℕ) :
    i ∈ l.foldl (fun a w => a ∪ wi w) acc ↔ i ∈ acc ∨ ∃ w ∈ l, i ∈ wi w := by
  induction l generalizing acc with
  | nil => simp
  | cons x xs ih =>
    simp [List.foldl_cons, ih, Finset.mem_union, or_assoc]

theorem mem_candidateFinset {st : SearcherState} {qws : List String} {i : ℕ} :
    i ∈ candidateFinset st qws ↔ ∃ w ∈ qws, i ∈ st.wordIndex w := by
  unfold candidateFinset
  rw [mem_foldl_union]
  simp

/-- Every element of `search`'s result list originates from a scored
candidate. -/
theorem mem_topResults {p : LMParams} {st : SearcherState} {qws : List String}
    {cmds : List Record} {r : Record} {s : ℝ}
    (h : (r, s) ∈ topResults p st qws cmds) :
    ∃ i, i ∈ candidateList st qws ∧ r = cmds.getD i ⟨"", "", ""⟩ ∧
      s = scoreOf p st qws i := by
  unfold topResults at h
  obtain ⟨e, he, heq⟩ := List.mem_map.mp h
  have h1 : e ∈ sortDesc (scoredList p st qws) := List.mem_of_mem_take he
  have h2 : e ∈ scoredList p st qws := mem_sortDesc.mp h1
  unfold scoredList at h2
  have h3 := List.mem_of_mem_filter h2
  obtain ⟨i, hi, rfl⟩ := List.mem_map.mp h3
  exact ⟨i, hi, congrArg Prod.fst heq.symm, congrArg Prod.snd heq.symm⟩

/-- Since every score exceeds the 0.3 threshold (`scoreOf_bounds`), the
threshold filter in `search` never drops a candidate. -/
theorem scoredList_eq_map (p : LMParams) (st : SearcherState) (qws : List String) :
    scoredList p st qws =
      (candidateList st qws).map (fun i => (i, scoreOf p st qws i)) := by
  unfold scoredList
  apply List.filter_eq_self.mpr
  intro e he
  obtain ⟨i, _, rfl⟩ := List.mem_map.mp he
  exact decide_eq_true (scoreOf_bounds p st qws i).1

/-- Case analysis on a successful `search` call. -/
theorem search_eq_cases {O : Oracles} {p : LMParams} {st : SearcherState}
    {q : String} {cmds : List Record} {res : List (Record × ℝ)}
    (h : search O p st q cmds = some res) :
    res = [] ∨ ∃ qws, queryWordsOf O st q = some qws ∧ qws ≠ [] ∧
      res = topResults p st qws cmds := by
  unfold search at h
  split at h
  · exact Or.inl (Option.some.inj h).symm
  · obtain ⟨qws, hq, hv⟩ := Option.map_eq_some'.mp h
    by_cases hne : qws = []
    · subst hne
      simp at hv
      exact Or.inl hv
    · rw [if_neg hne] at hv
      exact Or.inr ⟨qws, hq, hne, hv.symm⟩

/-! ### Concrete evaluations used by witnesses and counterexamples -/

/-- Evaluation of a full pass on the one-record catalog `[rec0]` with the
exactly matching query "alpha". -/
theorem eval_alpha :
    searchBuilt O0 p0 ∅ [rec0] "alpha" = some [(rec0, scoreAlpha)] := by
  unfold searchBuilt search
  rw [if_neg (by decide : ¬ stripWs "alpha" = "")]
  rw [show queryWordsOf O0 (buildIndex ∅ [rec0]) "alpha" = some ["alpha"] from by decide]
  rw [Option.map_some']
  rw [if_neg (by decide : ¬ (["alpha"] : List String) = [])]
  unfold topResults
  rw [scoredList_eq_map]
  rw [show candidateList (buildIndex ∅ [rec0]) ["alpha"] = [0] from by decide]
  simp [sortDesc, insertDesc, scoreAlpha, List.getD]

/-- The two duplicate records of the catalog `[rec0, rec0]` receive the
same score. -/
theorem scoreOf_dup_eq :
    scoreOf p0 (buildIndex ∅ [rec0, rec0]) ["alpha"] 1 = scoreAlpha2 := by
  unfold scoreAlpha2 scoreOf
  rw [show ((buildIndex ∅ [rec0, rec0]).commandKeywords.getD 1 []) =
    ((buildIndex ∅ [rec0, rec0]).commandKeywords.getD 0 []) from by decide]

/-- Evaluation of a full pass on the duplicate-record catalog
`[rec0, rec0]` with the query "alpha": both duplicates are returned, with
equal scores. -/
theorem eval_alpha_dup :
    searchBuilt O0 p0 ∅ [rec0, rec0] "alpha" =
      some [(rec0, scoreAlpha2), (rec0, scoreAlpha2)] := by
  unfold searchBuilt search
  rw [if_neg (by decide : ¬ stripWs "alpha" = "")]
  rw [show queryWordsOf O0 (buildIndex ∅ [rec0, rec0]) "alpha" = some ["alpha"] from by decide]
  rw [Option.map_some']
  rw [if_neg (by decide : ¬ (["alpha"] : List String) = [])]
  unfold topResults
  rw [scoredList_eq_map]
  rw [show candidateList (buildIndex ∅ [rec0, rec0]) ["alpha"] = [0, 1] from by decide]
  simp only [List.map_cons, List.map_nil, scoreOf_dup_eq]
  rw [show scoreOf p0 (buildIndex ∅ [rec0, rec0]) ["alpha"] 0 = scoreAlpha2 from rfl]
  simp [sortDesc, insertDesc, le_refl, List.getD]

/-- With an empty vocabulary, `_correct_spelling` reaches
`process.extractOne(word, [])`, which returns `None`; unpacking it raises,
modelled as `none`.  This happens for every oracle behaviour, because the
vocabulary-membership tests cannot succeed. -/
theorem correctSpelling_empty_vocab (O : Oracles) (eng : Finset String)
    (cmds : List Record) (hAW : (buildIndex eng cmds).allWords = [])
    (w : String) : correctSpelling O (buildIndex eng cmds) w = none := by
  unfold correctSpelling
  rw [hAW, O.extractOne_nil]
  rw [if_neg (by simp)]
  cases hcor : O.correction (buildIndex eng cmds).knownWords w with
  | none => rfl
  | some c => simp

/-- The per-state membership characterisation of the accumulated
known-words set. -/
theorem mem_buildIndex_knownWords (prior : Finset String) (cmds : List Record)
    (w : String) :
    w ∈ (buildIndex prior cmds).knownWords ↔
      w ∈ prior ∨ ∃ c ∈ cmds, w ∈ tokenize (searchText c) := by
  simp [buildIndex, List.mem_flatten]

/-! ### The claims -/

/-- C1: the claim says `search` never fails and in particular returns no
results after building from an empty catalog.  In fact, with an empty
vocabulary any query containing a token longer than two characters crashes
inside `_correct_spelling`: `process.extractOne(word, [])` returns `None`
and the tuple unpacking raises `TypeError`, for every oracle behaviour and
every model parameterisation.  This evaluates the engine at the failing
input: catalog `[]`, query "hello". -/
theorem search_empty_catalog_crash (O : Oracles) (p : LMParams)
    (eng : Finset String) : searchBuilt O p eng [] "hello" = none := by
  unfold searchBuilt search
  rw [if_neg (by decide : ¬ stripWs "hello" = "")]
  unfold queryWordsOf
  rw [show tokenize "hello" = ["hello"] from by decide]
  rw [show correctedWords O (buildIndex eng []) ["hello"] = none from by
    simp [correctedWords, correctSpelling_empty_vocab O eng [] rfl]]
  rfl

/-- C2 counterexample: after a second build the known-words set still
contains the first build's vocabulary (and is therefore not equal to the
vocabulary of the current catalog): the spell checker is created once and
`load_words` only adds. -/
theorem knownWords_carryover_cex :
    (buildIndex (buildIndex ∅ [rec0]).knownWords [recB]).knownWords ≠
      vocabFinset [recB] := by decide

/-- C2 (amended): after every `build_index`, the spelling-correction
collaborator's known-words set equals its previous contents unioned with
the catalog's vocabulary — the vocabulary is added, but words from prior
builds (and the initial dictionary) carry over. -/
theorem buildIndex_knownWords_accumulates (prior : Finset String)
    (cmds : List Record) :
    (buildIndex prior cmds).knownWords = prior ∪ vocabFinset cmds := by
  simp only [buildIndex, vocabFinset]
  congr 1
  ext x
  simp [List.mem_dedup]

/-- C3: every (Record, score) pair returned by `search` has a score
strictly greater than 0.3 and at most 1. -/
theorem search_score_bounds (O : Oracles) (p : LMParams) (eng : Finset String)
    (cmds : List Record) (q : String) (res : List (Record × ℝ))
    (h : searchBuilt O p eng cmds q = some res) :
    ∀ r s, (r, s) ∈ res → 0.3 < s ∧ s ≤ 1 := by
  intro r s hm
  unfold searchBuilt at h
  rcases search_eq_cases h with rfl | ⟨qws, hq, hne, rfl⟩
  · simp at hm
  · obtain ⟨i, _, _, rfl⟩ := mem_topResults hm
    exact scoreOf_bounds p _ qws i

/-- Witness for C3: the concrete pass `eval_alpha` returns the pair
`(rec0, scoreAlpha)`, whose score lies in (0.3, 1]. -/
theorem search_score_bounds_witness : 0.3 < scoreAlpha ∧ scoreAlpha ≤ 1 :=
  search_score_bounds O0 p0 ∅ [rec0] "alpha" [(rec0, scoreAlpha)] eval_alpha
    rec0 scoreAlpha (by simp)

/-- C4 counterexample: on a catalog with two identical records the query
"alpha" returns both duplicates with equal scores, so the result list is
not sorted *strictly* by descending score. -/
theorem search_tie_not_strict_cex :
    searchBuilt O0 p0 ∅ [rec0, rec0] "alpha" =
      some [(rec0, scoreAlpha2), (rec0, scoreAlpha2)] ∧
    ¬ ((([(rec0, scoreAlpha2), (rec0, scoreAlpha2)] : List (Record × ℝ)).map
        Prod.snd).Pairwise (fun a b : ℝ => b < a)) := by
  refine ⟨eval_alpha_dup, ?_⟩
  intro hp
  simp only [List.map_cons, List.map_nil, List.pairwise_cons] at hp
  exact lt_irrefl _ (hp.1 _ (List.mem_cons_self _ _))

/-- C4 (amended): the list returned by `search` has length at most 3 and
is sorted by non-increasing score; ties are possible (e.g. duplicate
records), and the order among equal scores is unspecified. -/
theorem search_topk_sorted (O : Oracles) (p : LMParams) (eng : Finset String)
    (cmds : List Record) (q : String) (res : List (Record × ℝ))
    (h : searchBuilt O p eng cmds q = some res) :
    res.length ≤ 3 ∧ (res.map Prod.snd).Pairwise (fun a b : ℝ => b ≤ a) := by
  unfold searchBuilt at h
  rcases search_eq_cases h with rfl | ⟨qws, hq, hne, rfl⟩
  · simp
  · constructor
    · unfold topResults
      rw [List.length_map]
      exact List.length_take_le _ _
    · unfold topResults
      rw [List.map_map, List.pairwise_map]
      exact List.Pairwise.sublist (List.take_sublist _ _) (pairwise_sortDesc _)

/-- Witness for C4: the single result of the concrete pass `eval_alpha`
satisfies the top-k bound and the descending-sort property. -/
theorem search_topk_sorted_witness :
    ([(rec0, scoreAlpha)] : List (Record × ℝ)).length ≤ 3 ∧
    (([(rec0, scoreAlpha)] : List (Record × ℝ)).map Prod.snd).Pairwise
      (fun a b : ℝ => b ≤ a) :=
  search_topk_sorted O0 p0 ∅ [rec0] "alpha" [(rec0, scoreAlpha)] eval_alpha

/-- C5: every record returned by `search` shares at least one keyword with
the corrected query tokens — a record with no overlap is never a
candidate (the inverted index is a hard filter). -/
theorem search_results_overlap (O : Oracles) (p : LMParams) (eng : Finset String)
    (cmds : List Record) (q : String) (res : List (Record × ℝ))
    (h : searchBuilt O p eng cmds q = some res) :
    ∀ r s, (r, s) ∈ res →
      ∃ qws, queryWordsOf O (buildIndex eng cmds) q = some qws ∧
        ∃ w ∈ qws, w ∈ tokenize (searchText r) := by
  intro r s hm
  unfold searchBuilt at h
  rcases search_eq_cases h with rfl | ⟨qws, hq, hne, rfl⟩
  · simp at hm
  · refine ⟨qws, hq, ?_⟩
    obtain ⟨i, hi, hr, _⟩ := mem_topResults hm
    unfold candidateList at hi
    have h2 := List.mem_filter.mp hi
    have hcand : i ∈ candidateFinset (buildIndex eng cmds) qws := by
      simpa using h2.2
    obtain ⟨w, hw, hwi⟩ := mem_candidateFinset.mp hcand
    refine ⟨w, hw, ?_⟩
    simp only [buildIndex, Finset.mem_filter, Finset.mem_range] at hwi
    rw [hr]
    exact hwi.2

/-- Witness for C5: the record returned by the concrete pass `eval_alpha`
shares the token "alpha" with the corrected query. -/
theorem search_results_overlap_witness :
    ∃ qws, queryWordsOf O0 (buildIndex ∅ [rec0]) "alpha" = some qws ∧
      ∃ w ∈ qws, w ∈ tokenize (searchText rec0) :=
  search_results_overlap O0 p0 ∅ [rec0] "alpha" [(rec0, scoreAlpha)] eval_alpha
    rec0 scoreAlpha (by simp)

/-- C6 counterexample: two distinct raw tokens ("alphaa", "alphab") both
correct to the vocabulary word "alpha", so the corrected query-word list
is `["alpha", "alpha"]`; the code's coverage is 1/2 (denominator counts
tokens with multiplicity), while the claimed formula — distinct matched
over distinct corrected tokens — evaluates to 1. -/
theorem coverage_denominator_cex :
    queryWordsOf O6 (buildIndex ∅ [rec0]) "alphaa alphab" =
      some ["alpha", "alpha"] ∧
    coverageOf ["alpha", "alpha"]
      ((buildIndex ∅ [rec0]).commandKeywords.getD 0 []) = 1 / 2 ∧
    (((["alpha", "alpha"] : List String).dedup.filter
        (fun w => w ∈ (buildIndex ∅ [rec0]).commandKeywords.getD 0 [])).length : ℝ) /
      ((["alpha", "alpha"] : List String).dedup.length : ℝ) = 1 ∧
    (1 / 2 : ℝ) ≠ 1 := by
  refine ⟨by decide, ?_, ?_, by norm_num⟩
  · unfold coverageOf
    rw [show ((["alpha", "alpha"] : List String).dedup.filter
        (fun w => w ∈ (buildIndex ∅ [rec0]).commandKeywords.getD 0 [])) = ["alpha"]
      from by decide]
    norm_num
  · rw [show ((["alpha", "alpha"] : List String).dedup.filter
        (fun w => w ∈ (buildIndex ∅ [rec0]).commandKeywords.getD 0 [])) = ["alpha"]
      from by decide]
    rw [show (["alpha", "alpha"] : List String).dedup = ["alpha"] from by decide]
    norm_num

/-- C6 (amended): the coverage feature equals the number of *distinct*
corrected query tokens present in the record's keyword set divided by the
number of corrected query tokens *counted with multiplicity* (distinct raw
tokens may correct to the same word), and it lies in [0, 1]. -/
theorem coverage_multiplicity_bounds (qws cw : List String) :
    coverageOf qws cw = ((qws.toFinset ∩ cw.toFinset).card : ℝ) / (qws.length : ℝ) ∧
    0 ≤ coverageOf qws cw ∧ coverageOf qws cw ≤ 1 := by
  refine ⟨?_, coverageOf_nonneg qws cw, coverageOf_le_one qws cw⟩
  unfold coverageOf
  have h1 : qws.toFinset ∩ cw.toFinset =
      (qws.dedup.filter (fun w => w ∈ cw)).toFinset := by
    ext x
    simp [List.mem_filter, List.mem_dedup]
  have hnum : (qws.dedup.filter (fun w => w ∈ cw)).length =
      (qws.toFinset ∩ cw.toFinset).card := by
    rw [h1, List.toFinset_card_of_nodup (List.Nodup.filter _ qws.nodup_dedup)]
  rw [hnum]

/-- C7: the correction policy of `_correct_spelling`: a vocabulary token
is kept; otherwise a truthy dictionary correction that is in the
vocabulary is used; otherwise the best approximate match is used exactly
when its similarity exceeds 80, and the original token is kept
otherwise. -/
theorem spell_correction_cases (O : Oracles) (st : SearcherState) (w : String) :
    (w ∈ st.allWords → correctSpelling O st w = some w) ∧
    (∀ c, w ∉ st.allWords → O.correction st.knownWords w = some c → c ≠ "" →
      c ∈ st.allWords → correctSpelling O st w = some c) ∧
    (∀ m s, w ∉ st.allWords →
      (∀ c, O.correction st.knownWords w = some c → c = "" ∨ c ∉ st.allWords) →
      O.extractOne w st.allWords = some (m, s) → 80 < s →
      correctSpelling O st w = some m) ∧
    (∀ m s, w ∉ st.allWords →
      (∀ c, O.correction st.knownWords w = some c → c = "" ∨ c ∉ st.allWords) →
      O.extractOne w st.allWords = some (m, s) → ¬ 80 < s →
      correctSpelling O st w = some w) := by
  refine ⟨?_, ?_, ?_, ?_⟩
  · intro h
    unfold correctSpelling
    rw [if_pos h]
  · intro c h hcor hne hmem
    unfold correctSpelling
    rw [if_neg h, hcor]
    simp [hne, hmem]
  · intro m s h hcor hext hs
    unfold correctSpelling
    rw [if_neg h, hext]
    cases hc : O.correction st.knownWords w with
    | none => simp [hs]
    | some c =>
      rcases hcor c hc with hce | hcm
      · simp [hce, hs]
      · simp [hcm, hs]
  · intro m s h hcor hext hs
    unfold correctSpelling
    rw [if_neg h, hext]
    cases hc : O.correction st.knownWords w with
    | none => simp [hs]
    | some c =>
      rcases hcor c hc with hce | hcm
      · simp [hce, hs]
      · simp [hcm, hs]

/-- Witness for C7: "alpha" is in the vocabulary of the `[rec0]` build and
is returned unchanged. -/
theorem spell_correction_cases_witness :
    correctSpelling O0 (buildIndex ∅ [rec0]) "alpha" = some "alpha" :=
  (spell_correction_cases O0 (buildIndex ∅ [rec0]) "alpha").1 (by decide)

/-- C8: an empty or whitespace-only query returns the empty result list
(no exception): the guard `if not query.strip()` fires before any other
work. -/
theorem search_blank_query (O : Oracles) (p : LMParams) (st : SearcherState)
    (cmds : List Record) (q : String) (h : stripWs q = "") :
    search O p st q cmds = some [] := by
  unfold search
  rw [if_pos h]

/-- Witness for C8 at the two concrete queries of the claim, the empty
string and three spaces. -/
theorem search_blank_query_witness :
    search O0 p0 (buildIndex ∅ [rec0]) "" [rec0] = some [] ∧
    search O0 p0 (buildIndex ∅ [rec0]) "   " [rec0] = some [] :=
  ⟨search_blank_query O0 p0 (buildIndex ∅ [rec0]) [rec0] "" (by decide),
   search_blank_query O0 p0 (buildIndex ∅ [rec0]) [rec0] "   " (by decide)⟩

/-- C9 counterexample: on the empty id list `forward` returns 0.33 in each
coordinate, and 0.33 is not one third — the output is uniform but not the
claimed `[1/3, 1/3, 1/3]`. -/
theorem forward_empty_cex :
    forward p0 1 [] 0 = 0.33 ∧ (0.33 : ℝ) ≠ 1 / 3 := by
  constructor
  · simp [forward]
  · norm_num

/-- C9 (amended): for every parameterisation and vocabulary size,
`forward` on the empty id list returns the neutral output
`[0.33, 0.33, 0.33]` (approximately, but not exactly, uniform thirds). -/
theorem forward_empty_value (p : LMParams) (V : ℕ) (k : Fin 3) :
    forward p V [] k = 0.33 := by
  simp [forward]

/-- C10: on a non-empty id list the softmax over the single scalar
attention score is exactly 1, so the attention stage is the identity and
the forward pass equals the sigmoid of the classifier applied to the mean
embedding, for all parameter values. -/
theorem forward_attention_identity (p : LMParams) (V : ℕ) (ids : List ℕ)
    (h : ids ≠ []) :
    Real.exp (attnScore p V ids) / Real.exp (attnScore p V ids) = 1 ∧
    ∀ k, forward p V ids k = forwardNoAttn p V ids k := by
  have he : Real.exp (attnScore p V ids) / Real.exp (attnScore p V ids) = 1 :=
    div_self (Real.exp_ne_zero _)
  refine ⟨he, fun k => ?_⟩
  unfold forward forwardNoAttn
  rw [if_neg h]
  simp only [he, mul_one]

/-- Witness for C10 at the concrete id list `[0]` and the all-zero
parameters. -/
theorem forward_attention_identity_witness :
    forward p0 1 [0] 0 = forwardNoAttn p0 1 [0] 0 :=
  (forward_attention_identity p0 1 [0] (by decide)).2 0

end Duckie
